import Mathlib

/-!
Verification development for the dc4 desk calculator (a Rust reimplementation
of Unix dc).  The definitions below are a shallow embedding of the program's
core data structures and of the operations exercised by the properties under
study: the scaled-decimal number type `BigReal` (src/big_real.rs), the number
builder and radix printing (src/state.rs `Number`, `DC4::print_elem`), the
register file (src/dcregisters.rs), the evaluator's action handler
(src/state.rs `DC4::action`) and the control flow of the macro runner
(src/state.rs `DC4::run_macro` / `DC4::program`).

Conventions used throughout:
  * Rust `Vec<T>` stacks are modelled as Lean `List T` with the HEAD of the
    list being the TOP of the stack (`Vec::push` = cons, `Vec::last` = head).
  * `BigInt` is modelled as `Int`; the `u32` shift/scale counters are
    modelled as `Nat` (the claims under study never reach 2^32).
  * num-bigint division truncates toward zero; it is modelled with
    `Int.tdiv` / `Int.tmod`.
  * Fallible Rust code (`Result<_, DCError>`, panics, `Option`) is modelled
    with `Except String _` and `Option`.
-/

/-- Model of `BigReal` (src/big_real.rs): a signed arbitrary precision
integer `value` together with a decimal shift, representing
`value * 10 ^ (-shift)`. -/
structure BigReal where
  shift : Nat
  value : Int
  deriving Repr, DecidableEq

/-- Iterated truncating division by 10: the `for _ in 0..k { value = value / 10 }`
loop in `BigReal::change_shift` (num-bigint `/` truncates toward zero). -/
def tdivPow10 (v : Int) : Nat → Int
  | 0 => v
  | k + 1 => tdivPow10 (v.tdiv 10) k

/-- Model of `BigReal::change_shift`: raising the shift multiplies the value
by 10 per step (the multiplication loop is folded into `* 10 ^ k`); lowering
it divides, truncating toward zero, one digit at a time. -/
def BigReal.change_shift (a : BigReal) (d : Nat) : BigReal :=
  if a.shift < d then ⟨d, a.value * 10 ^ (d - a.shift)⟩
  else ⟨d, tdivPow10 a.value (a.shift - d)⟩

/-- Model of the loop in `BigReal::simplify`: while the shift is positive and
the value is divisible by 10, divide the value by 10 and decrement the shift.
Returns the final (shift, value) pair. -/
def simplifyAux : Nat → Int → Nat × Int
  | 0, v => (0, v)
  | s + 1, v => if v.tmod 10 = 0 then simplifyAux s (v.tdiv 10) else (s + 1, v)

/-- Model of `BigReal::simplify` (reduce the shift without losing precision). -/
def BigReal.simplify (a : BigReal) : BigReal :=
  ⟨(simplifyAux a.shift a.value).1, (simplifyAux a.shift a.value).2⟩

/-- Model of `BigReal::set_shift`. -/
def BigReal.set_shift (a : BigReal) (s : Nat) : BigReal := ⟨s, a.value⟩

/-- Model of `BigReal::is_negative` (sign of the underlying integer). -/
def BigReal.is_negative (a : BigReal) : Bool := decide (a.value < 0)

/-- Model of `BigReal::is_positive`. -/
def BigReal.is_positive (a : BigReal) : Bool := decide (0 < a.value)

/-- Model of `Zero::is_zero` for `BigReal` (zero value, any shift). -/
def BigReal.is_zero (a : BigReal) : Bool := decide (a.value = 0)

/-- Model of `BigReal::is_integer` (shift is zero). -/
def BigReal.is_integer (a : BigReal) : Bool := decide (a.shift = 0)

/-- Model of `BigReal::num_frx_digits` (the shift). -/
def BigReal.num_frx_digits (a : BigReal) : Nat := a.shift

/-- Model of `impl Add for BigReal`: align the operand with the smaller shift
up to the larger shift (exact multiplication by powers of 10) and add. -/
def BigReal.add (a b : BigReal) : BigReal :=
  if a.shift = b.shift then ⟨a.shift, a.value + b.value⟩
  else if b.shift < a.shift then ⟨a.shift, a.value + (b.change_shift a.shift).value⟩
  else ⟨b.shift, b.value + (a.change_shift b.shift).value⟩

/-- Model of `impl Sub for BigReal`: add the negation (same shift). -/
def BigReal.sub (a b : BigReal) : BigReal := a.add ⟨b.shift, -b.value⟩

/-- Model of `impl Mul for BigReal`: multiply values, add shifts. -/
def BigReal.mul (a b : BigReal) : BigReal := ⟨a.shift + b.shift, a.value * b.value⟩

/-- Model of `BigReal::abs`. -/
def BigReal.abs (a : BigReal) : BigReal := ⟨a.shift, |a.value|⟩

/-- Model of `BigReal::adjust_for_div`: align the dividend to
`max(shifts) + scale` and the divisor to `max(shifts)` (both alignments only
ever raise the shift, hence are exact). -/
def BigReal.adjust_for_div (a b : BigReal) (scale : Nat) : Int × Int :=
  ((a.change_shift (max a.shift b.shift + scale)).value,
   (b.change_shift (max a.shift b.shift)).value)

/-- Model of `BigReal::div`: truncating integer division of the adjusted
values; the result's shift is exactly `scale`. -/
def BigReal.div (a b : BigReal) (scale : Nat) : BigReal :=
  ⟨scale, (a.adjust_for_div b scale).1.tdiv (a.adjust_for_div b scale).2⟩

/-- Model of `BigReal::rem`: `self - rhs * self.div(rhs, scale)`. -/
def BigReal.rem (a b : BigReal) (scale : Nat) : BigReal :=
  a.sub (b.mul (a.div b scale))

/-- Model of `BigReal::div_rem`. -/
def BigReal.div_rem (a b : BigReal) (scale : Nat) : BigReal × BigReal :=
  (a.div b scale, a.sub (b.mul (a.div b scale)))

/-- Model of `BigReal::to_int`: drop the fractional digits (truncating
division by 10, shift times), then simplify (a no-op at shift 0), and take
the value. -/
def BigReal.to_int (a : BigReal) : Int := ((a.change_shift 0).simplify).value

/-- Model of `ToPrimitive::to_u64`/`to_u32` for `BigReal` restricted to the
u32 range as used by the radix and scale commands: the integer part if it is
in `[0, 2^32)`. -/
def BigReal.to_u32 (a : BigReal) : Option Nat :=
  if 0 ≤ (a.change_shift 0).value ∧ (a.change_shift 0).value < 2 ^ 32
  then some (a.change_shift 0).value.toNat else none

/-- Model of `impl PartialOrd for BigReal`: equal shifts compare the values
directly, otherwise both are aligned to the larger shift first. -/
def BigReal.cmpB (a b : BigReal) : Ordering :=
  if a.shift = b.shift then compare a.value b.value
  else compare (a.change_shift (max a.shift b.shift)).value
               (b.change_shift (max a.shift b.shift)).value

/-- Model of `impl PartialEq for BigReal`: equal shifts compare the values
directly, otherwise both are aligned to the larger shift first. -/
def BigReal.eqB (a b : BigReal) : Bool :=
  if a.shift = b.shift then a.value == b.value
  else (a.change_shift (max a.shift b.shift)).value
         == (b.change_shift (max a.shift b.shift)).value

/-- Model of `impl Hash for BigReal`: the hash is a function of the
simplified clone's (shift, value) pair, so hash equality is modelled as
equality of those canonical pairs. -/
def BigReal.hashCanon (a : BigReal) : Nat × Int := simplifyAux a.shift a.value

/-- The rational number denoted by a `BigReal` (the specification-level
meaning `value * 10^(-shift)`); used to state representation independence. -/
def BigReal.toRat (a : BigReal) : ℚ := (a.value : ℚ) / 10 ^ a.shift

/-- Newton iteration for `BigReal::sqrt`.  The loop in the source terminates
when the iterates stop changing; that termination argument is numeric, so the
loop is modelled with a fuel parameter (no property under study inspects the
iterates). -/
def sqrtGo (self : BigReal) (scale : Nat) : BigReal → Nat → BigReal
  | x, 0 => x
  | x, fuel + 1 =>
    let next := (x.add (self.div x scale)).div ⟨0, 2⟩ scale
    let delta := (x.sub next).abs
    if delta.value - 1 ≤ 0 then next else sqrtGo self scale next fuel

/-- Model of `BigReal::sqrt`: `None` for negative input, otherwise Newton
iteration at working scale `max(self.shift, scale)` starting from `self`. -/
def BigReal.sqrt (a : BigReal) (scale : Nat) : Option BigReal :=
  if a.is_negative then none
  else some (sqrtGo a (max a.shift scale) a 1000000)

/-- Big-endian base-`r` digit list of a natural number, modelling the digit
string produced by num-bigint's `BigInt::to_str_radix` (zero prints as the
single digit 0). -/
def natDigitsBE (r n : Nat) : List Nat :=
  if n = 0 then [0] else (Nat.digits r n).reverse

/-- The (lowercase) character num-bigint uses for digit `d` (`0`-`9`,
`a`-`f`). -/
def digitCharLC (d : Nat) : Char :=
  if d < 10 then Char.ofNat (48 + d) else Char.ofNat (87 + d)

/-- ASCII uppercasing of one character, modelling `str::to_uppercase` as
applied by `DC4::print_elem` (only ASCII letters occur in numeric output). -/
def charUpper (c : Char) : Char :=
  if 'a' ≤ c ∧ c ≤ 'z' then Char.ofNat (c.toNat - 32) else c

/-- Model of Rust `char::to_digit(16)`. -/
def charToDigit16 (c : Char) : Option Nat :=
  if '0' ≤ c ∧ c ≤ '9' then some (c.toNat - 48)
  else if 'a' ≤ c ∧ c ≤ 'f' then some (c.toNat - 87)
  else if 'A' ≤ c ∧ c ≤ 'F' then some (c.toNat - 55)
  else none

/-- Model of `BigReal::to_str_radix` in the integer case (`shift == 0`):
`value.to_str_radix(radix)`, i.e. a minus sign for negative values followed
by the magnitude's digits (the fractional branches of `to_str_radix` are not
exercised by the properties under study). -/
def to_str_radix0 (r : Nat) (x : BigReal) : List Char :=
  (if x.value < 0 then ['-'] else []) ++ (natDigitsBE r x.value.natAbs).map digitCharLC

/-- Model of `DC4::print_elem` on an integer numeric value: zero prints as
the single character 0 regardless of scale; otherwise `to_str_radix(oradix)`
uppercased. -/
def print_elem_num (r : Nat) (x : BigReal) : List Char :=
  if x.value = 0 then ['0'] else (to_str_radix0 r x).map charUpper

/-- Model of the `Number` builder in src/state.rs (a number in the process
of being built from input characters). -/
structure Number where
  int : Int := 0
  shift : Option Nat := none
  neg : Bool := false
  deriving Repr, DecidableEq

/-- Model of `Number::push`: `_` sets the negative flag; `0`-`9`/`A`-`F`
multiplies the accumulator by `iradix` and adds the digit's base-16 value
(and counts a fractional digit when after the dot); `.` starts fractional
digit counting.  The source panics on any other character (unreachable from
the parser); that is modelled as `none`. -/
def Number.push (c : Char) (iradix : Nat) (num : Number) : Option Number :=
  if c = '_' then some { num with neg := true }
  else if ('0' ≤ c ∧ c ≤ '9') ∨ ('A' ≤ c ∧ c ≤ 'F') then
    (charToDigit16 c).map fun d =>
      { num with int := num.int * iradix + d, shift := num.shift.map (· + 1) }
  else if c = '.' then some { num with shift := some 0 }
  else none

/-- Model of `Number::finish`: apply the sign, wrap as a `BigReal`; with a
fractional digit count `s`, either set the shift directly (decimal input) or
divide by `iradix` `s` times at scale `s` (non-decimal input). -/
def Number.finish (iradix : Nat) (num : Number) : BigReal :=
  let i : Int := if num.neg then num.int * (-1) else num.int
  match num.shift with
  | none => ⟨0, i⟩
  | some s =>
    if iradix = 10 then BigReal.set_shift ⟨0, i⟩ s
    else (List.range s).foldl (fun r _ => r.div ⟨0, (iradix : Int)⟩ s) ⟨0, i⟩

/-- Feeding a character sequence to the `Number` builder and finishing it,
as the evaluator does for `NumberChar`* followed by `PushNumber`. -/
def parseNumberChars (iradix : Nat) (cs : List Char) : Option BigReal :=
  (cs.foldlM (fun num c => Number.push c iradix num) {}).map (Number.finish iradix)

/-- Model of `DCValue` (src/lib.rs): a number or a raw byte string. -/
inductive DCValue where
  | num (n : BigReal)
  | str (s : List Nat)
  deriving Repr, DecidableEq

/-- Model of `DCRegister` (src/dcregisters.rs): one slot of a register
stack, holding an optional main value and the slot-local array.  The
`HashMap<BigReal, Rc<DCValue>>` is modelled as an association list with the
newest binding first; lookups compare keys with `BigReal` equality, which is
sound because the hash is a function of the canonical (simplified) form. -/
structure DCRegister where
  main_value : Option DCValue
  map : List (BigReal × DCValue)
  deriving Repr, DecidableEq

/-- Model of `DCRegister::new`. -/
def DCRegister.new (v : Option DCValue) : DCRegister := ⟨v, []⟩

/-- Model of `DCRegister::map_insert` (`HashMap::insert`). -/
def DCRegister.map_insert (r : DCRegister) (key : BigReal) (v : DCValue) : DCRegister :=
  { r with map := (key, v) :: r.map }

/-- Model of `DCRegister::map_lookup` (`HashMap::get`): first binding whose
key is equal under `BigReal` equality. -/
def DCRegister.map_lookup (r : DCRegister) (key : BigReal) : Option DCValue :=
  (r.map.find? fun kv => BigReal.eqB kv.1 key).map (·.2)

/-- A register's stack of slots (`DCRegisterStack`); head = top slot. -/
def DCRegisterStack := List DCRegister

/-- Model of `DCRegisterStack::value`: peek the top slot's main value. -/
def DCRegisterStack.value : List DCRegister → Option DCValue
  | [] => none
  | r :: _ => r.main_value

/-- Model of `DCRegisterStack::set`: pop the top slot if there is one, then
push a fresh slot whose main value is `v` (and whose array is empty). -/
def DCRegisterStack.set (stk : List DCRegister) (v : DCValue) : List DCRegister :=
  match stk with
  | [] => [DCRegister.new (some v)]
  | _ :: rest => DCRegister.new (some v) :: rest

/-- Model of `DCRegisterStack::push`. -/
def DCRegisterStack.push (stk : List DCRegister) (v : DCValue) : List DCRegister :=
  DCRegister.new (some v) :: stk

/-- Model of `DCRegisterStack::pop`: remove the top slot and return its main
value. -/
def DCRegisterStack.pop (stk : List DCRegister) : Option DCValue × List DCRegister :=
  match stk with
  | [] => (none, [])
  | r :: rest => (r.main_value, rest)

/-- Model of `DCRegisterStack::array_store`: create a slot with no main
value if the register is empty, then insert into the top slot's array. -/
def DCRegisterStack.array_store (stk : List DCRegister) (key : BigReal) (v : DCValue) :
    List DCRegister :=
  match stk with
  | [] => [(DCRegister.new none).map_insert key v]
  | top :: rest => top.map_insert key v :: rest

/-- Model of `DCRegisterStack::array_load`: look the key up in the top
slot's array; a missing key or empty register reads as zero. -/
def DCRegisterStack.array_load (stk : List DCRegister) (key : BigReal) : DCValue :=
  match stk with
  | [] => DCValue.num ⟨0, 0⟩
  | top :: _ => (top.map_lookup key).getD (DCValue.num ⟨0, 0⟩)

/-- UTF-8 encoding of a code point below 256, modelling what
`format!("{}", b as char)` produces in the numeric arm of the asciify
command: one byte below 0x80, otherwise the two-byte encoding. -/
def utf8EncodeByte (b : Nat) : List Nat :=
  if b < 128 then [b] else [192 + b / 64, 128 + b % 64]

/-- Model of the comparison variants of `RegisterAction` in src/state.rs
(`Gt`, `Le`, `Lt`, `Ge`, `Eq`, `Ne`). -/
inductive Cmp where
  | gt | le | lt | ge | eq | ne
  deriving Repr, DecidableEq

/-- The comparison closures passed to `DC4::cond_macro` by `DC4::action`:
with `a` the second-from-top and `b` the top value (as bound by
`get_two_ints`), the test is `b OP a` (`|a, b| b > a` for `Gt`, and so on).
Order comparisons go through `PartialOrd`, equality through `PartialEq`. -/
def condTest : Cmp → BigReal → BigReal → Bool
  | .gt, a, b => BigReal.cmpB b a == Ordering.gt
  | .le, a, b => BigReal.cmpB b a != Ordering.gt
  | .lt, a, b => BigReal.cmpB b a == Ordering.lt
  | .ge, a, b => BigReal.cmpB b a != Ordering.lt
  | .eq, a, b => BigReal.eqB b a
  | .ne, a, b => !(BigReal.eqB b a)

/-- The comparison test as the specification sentence words it: with `a` the
most recent top and `b` the second-from-top, test `b OP a`.  (Stated from the
spec's words, for comparison against `condTest`, which is stated from the
source.) -/
def specCondTest (c : Cmp) (top second : BigReal) : Bool := condTest c top second

/-- Subset of the register actions of src/parser.rs exercised here. -/
inductive RegAct where
  | store
  | storeRegArray
  | loadRegArray
  | cmp (c : Cmp)
  deriving Repr, DecidableEq

/-- Subset of the parser `Action`s of src/parser.rs whose evaluator arms the
properties under study exercise. -/
inductive ActionE where
  | sqrt
  | div
  | dup
  | swap
  | print
  | asciify
  | setInputRadix
  | register (ra : RegAct) (reg : Nat)
  deriving Repr, DecidableEq

/-- Model of `DCResult` (src/lib.rs) as returned by `DC4::action`:
`invoke` is `DCResult::Macro` carrying the string's bytes. -/
inductive DCResultE where
  | continue
  | invoke (s : List Nat)
  | quitLevels (n : Nat)
  | terminate (n : Nat)
  deriving Repr, DecidableEq

/-- Model of the `DC4` evaluator state (src/state.rs): the stack, the 256
register stacks (indexed by the register byte, modelled as a total function),
and the three modes.  Output written to the writer is not modelled; errors
are returned, as in the source. -/
structure DC4State where
  stack : List DCValue
  registers : Nat → List DCRegister
  scale : Nat
  iradix : Nat
  oradix : Nat

/-- Model of `DC4::new`: empty stack, empty registers, scale 0, radixes 10. -/
def DC4State.initial : DC4State :=
  { stack := [], registers := fun _ => [], scale := 0, iradix := 10, oradix := 10 }

/-- Model of `DC4::get_two_ints`: read (without popping) the top two stack
values; `a` is the second-from-top (checked first) and `b` the top. -/
def get_two_ints : List DCValue → Except String (BigReal × BigReal)
  | top :: second :: _ =>
    match second with
    | DCValue.num a =>
      match top with
      | DCValue.num b => Except.ok (a, b)
      | _ => Except.error "non-numeric value"
    | _ => Except.error "non-numeric value"
  | _ => Except.error "stack empty"

/-- Error message for loading from an empty register (the source also
formats the register byte as a character and in octal). -/
def regEmptyMsg (reg : Nat) : String :=
  "register " ++ toString reg ++ " is empty"

/-- Pointwise register update for the register table. -/
def setReg (regs : Nat → List DCRegister) (reg : Nat) (stk : List DCRegister) :
    Nat → List DCRegister :=
  fun i => if i = reg then stk else regs i

/-- Model of `DC4::cond_macro` (here `cond_exec`): via `binary_lambda`, read
the top two values (erroring without popping if absent or non-numeric), pop
both, and if the test succeeds fetch the register's top value: a string
yields `Macro(bytes)`, a number does nothing, an empty register is an
error. -/
def cond_exec (reg : Nat) (f : BigReal → BigReal → Bool) (st : DC4State) :
    DC4State × Except String DCResultE :=
  match get_two_ints st.stack with
  | Except.error e => (st, Except.error e)
  | Except.ok (a, b) =>
    let st' := { st with stack := st.stack.drop 2 }
    if f a b then
      match DCRegisterStack.value (st.registers reg) with
      | some (DCValue.str s) => (st', Except.ok (DCResultE.invoke s))
      | some (DCValue.num _) => (st', Except.ok DCResultE.continue)
      | none => (st', Except.error (regEmptyMsg reg))
    else (st', Except.ok DCResultE.continue)

/-- Model of the arms of `DC4::action` (src/state.rs) exercised by the
properties under study.  Each arm is translated directly from the source;
`pop_top` failures surface as the "stack empty" error. -/
def DC4action (a : ActionE) (st : DC4State) : DC4State × Except String DCResultE :=
  match a with
  | ActionE.sqrt =>
    match st.stack with
    | [] => (st, Except.error "stack empty")
    | DCValue.num n :: rest =>
      if n.is_negative then
        ({ st with stack := rest }, Except.error "square root of negative number")
      else if n.is_zero then
        ({ st with stack := DCValue.num n :: rest }, Except.ok DCResultE.continue)
      else
        ({ st with stack := DCValue.num ((n.sqrt st.scale).getD ⟨0, 0⟩) :: rest },
         Except.ok DCResultE.continue)
    | DCValue.str _ :: rest =>
      ({ st with stack := rest }, Except.error "square root of nonnumeric attempted")
  | ActionE.div =>
    match get_two_ints st.stack with
    | Except.error e => (st, Except.error e)
    | Except.ok (a, b) =>
      if b.is_zero then (st, Except.error "divide by zero")
      else ({ st with stack := DCValue.num (a.div b st.scale) :: st.stack.drop 2 },
            Except.ok DCResultE.continue)
  | ActionE.dup =>
    match st.stack with
    | [] => (st, Except.ok DCResultE.continue)
    | v :: rest => ({ st with stack := v :: v :: rest }, Except.ok DCResultE.continue)
  | ActionE.swap =>
    match st.stack with
    | top :: second :: rest =>
      ({ st with stack := second :: top :: rest }, Except.ok DCResultE.continue)
    | _ => (st, Except.error "stack empty")
  | ActionE.print =>
    match st.stack with
    | [] => (st, Except.error "stack empty")
    | _ :: _ => (st, Except.ok DCResultE.continue)
  | ActionE.asciify =>
    match st.stack with
    | [] => (st, Except.error "stack empty")
    | DCValue.str s :: rest =>
      ({ st with stack := DCValue.str (s.take 1) :: rest }, Except.ok DCResultE.continue)
    | DCValue.num n :: rest =>
      ({ st with stack :=
          DCValue.str (utf8EncodeByte (n.to_int.natAbs % 256)) :: rest },
       Except.ok DCResultE.continue)
  | ActionE.setInputRadix =>
    match st.stack with
    | [] => (st, Except.error "stack empty")
    | DCValue.num n :: rest =>
      (match n.to_u32 with
       | some radix =>
         if 2 ≤ radix ∧ radix ≤ 16 then
           ({ st with stack := rest, iradix := radix }, Except.ok DCResultE.continue)
         else
           ({ st with stack := rest },
            Except.error "input base must be a number between 2 and 16 (inclusive)")
       | none =>
         ({ st with stack := rest },
          Except.error "input base must be a number between 2 and 16 (inclusive)"))
    | DCValue.str _ :: rest =>
      ({ st with stack := rest },
       Except.error "input base must be a number between 2 and 16 (inclusive)")
  | ActionE.register ra reg =>
    match ra with
    | RegAct.store =>
      match st.stack with
      | [] => (st, Except.error "stack empty")
      | v :: rest =>
        ({ st with stack := rest,
                   registers := setReg st.registers reg
                     (DCRegisterStack.set (st.registers reg) v) },
         Except.ok DCResultE.continue)
    | RegAct.storeRegArray =>
      match st.stack with
      | [] => (st, Except.error "stack empty")
      | [_] => ({ st with stack := [] }, Except.error "stack empty")
      | k :: v :: rest =>
        let maybe_key : Option BigReal :=
          match k with
          | DCValue.num n => if n.is_negative then none else some n
          | _ => none
        match maybe_key with
        | none =>
          ({ st with stack := rest },
           Except.error "array index must be a nonnegative integer")
        | some key =>
          ({ st with stack := rest,
                     registers := setReg st.registers reg
                       (DCRegisterStack.array_store (st.registers reg) key v) },
           Except.ok DCResultE.continue)
    | RegAct.loadRegArray =>
      match st.stack with
      | [] => (st, Except.error "stack empty")
      | DCValue.num n :: rest =>
        if n.is_negative then
          ({ st with stack := rest },
           Except.error "array index must be a nonnegative integer")
        else
          ({ st with stack :=
              DCRegisterStack.array_load (st.registers reg) n :: rest },
           Except.ok DCResultE.continue)
      | DCValue.str _ :: rest =>
        ({ st with stack := rest },
         Except.error "array index must be a nonnegative integer")
    | RegAct.cmp c => cond_exec reg (condTest c) st

/-- Control results relevant to the macro runner's quit handling (the
`Macro` variant is represented structurally by `Item.call` below). -/
inductive QResult where
  | cont
  | quitLevels (n : Nat)
  | terminate (n : Nat)
  deriving Repr, DecidableEq

/-- One step of a macro body, abstracting `DC4::run_macro`'s view of it: an
action either evaluates to a direct control result (`res`) or requests
execution of a sub-body (`call`, i.e. an action returning
`DCResult::Macro`).  The end of the body (the parser's `Eof`) is the end of
the list. -/
inductive Item where
  | res (r : QResult)
  | call (body : List Item)

/-- Model of the `quit_handler!` logic in `DC4::run_macro`: given the
frame's tail-call counter `td` and the quit count `n`, decide what the frame
returns (`some r` returns `r` from the frame, abandoning the rest of its
body; `none` falls through and the frame keeps executing).  `ctor` is the
result kind being handled (`QuitLevels` or `Terminate`).  The source
computes `n - 1` on a `u32` with `n ≥ 1` always (the Q command requires a
positive count and propagation keeps it positive); natural subtraction
coincides with it there. -/
def quitHandler (td n : Nat) (ctor : Nat → QResult) : Option QResult :=
  if td < n - 1 then some (ctor (n - td - 1))
  else if n - 1 = td then some QResult.cont
  else if 0 < n ∧ 0 < td then some QResult.cont
  else none

/-- Model of `DC4::run_macro` at the control-flow level: execute the items
of a body with tail-call counter `td`.  A `call` whose continuation is empty
is a tail call (the source replaces the body and increments the counter); a
non-tail `call` recurses with a fresh counter and feeds the sub-result to
the quit handler, exactly as `run_macro` does. -/
def runBody (td : Nat) : List Item → QResult
  | [] => QResult.cont
  | Item.res r :: rest =>
    match r with
    | QResult.cont => runBody td rest
    | QResult.quitLevels n => (quitHandler td n QResult.quitLevels).getD (runBody td rest)
    | QResult.terminate n => (quitHandler td n QResult.terminate).getD (runBody td rest)
  | Item.call sub :: rest =>
    match rest with
    | [] => runBody (td + 1) sub
    | r1 :: rs1 =>
      match runBody 0 sub with
      | QResult.cont => runBody td (r1 :: rs1)
      | QResult.quitLevels n =>
        (quitHandler td n QResult.quitLevels).getD (runBody td (r1 :: rs1))
      | QResult.terminate n =>
        (quitHandler td n QResult.terminate).getD (runBody td (r1 :: rs1))
termination_by l => sizeOf l
decreasing_by all_goals simp_wf <;> omega

/-- Wrap a body in successively enclosing macro frames: `nest inner rs`
places `inner` as a sub-body call at the front of a frame whose remaining
items are the first element of `rs`, and so on outward. -/
def nest (inner : List Item) : List (List Item) → List Item
  | [] => inner
  | rest :: rs => nest (Item.call inner :: rest) rs

/-- Model of the control flow of `DC4::program` (the top, non-macro level):
`Continue` and `QuitLevels` results keep the loop going (a `Q` must not exit
the top level); a `Terminate` result is returned. -/
def topProgram : List Item → QResult
  | [] => QResult.cont
  | Item.res r :: rest =>
    match r with
    | QResult.cont => topProgram rest
    | QResult.quitLevels _ => topProgram rest
    | QResult.terminate n => QResult.terminate n
  | Item.call sub :: rest =>
    match runBody 0 sub with
    | QResult.cont => topProgram rest
    | QResult.quitLevels _ => topProgram rest
    | QResult.terminate n => QResult.terminate n

lemma change_shift_shift (a : BigReal) (d : Nat) : (a.change_shift d).shift = d := by
  unfold BigReal.change_shift
  split <;> rfl

lemma change_shift_value_of_le (a : BigReal) (d : Nat) (h : a.shift ≤ d) :
    (a.change_shift d).value = a.value * 10 ^ (d - a.shift) := by
  by_cases h' : a.shift < d
  · simp [BigReal.change_shift, h']
  · have hd : a.shift = d := le_antisymm h (not_lt.mp h')
    simp [BigReal.change_shift, hd, tdivPow10]

lemma ten_pow_ne (k : Nat) : (10 : ℚ) ^ k ≠ 0 := pow_ne_zero _ (by norm_num)

lemma ratPow_sub_mul (s m : Nat) (h : s ≤ m) : (10 : ℚ) ^ (m - s) * 10 ^ s = 10 ^ m := by
  rw [← pow_add, Nat.sub_add_cancel h]

lemma toRat_change_shift (a : BigReal) (d : Nat) (h : a.shift ≤ d) :
    (a.change_shift d).toRat = a.toRat := by
  unfold BigReal.toRat
  rw [change_shift_value_of_le a d h, change_shift_shift]
  push_cast
  rw [div_eq_div_iff (ten_pow_ne _) (ten_pow_ne _), mul_assoc, ratPow_sub_mul _ _ h]

lemma toRat_add (a b : BigReal) : (a.add b).toRat = a.toRat + b.toRat := by
  unfold BigReal.add
  by_cases hs : a.shift = b.shift
  · simp only [if_pos hs]
    unfold BigReal.toRat
    simp only [hs]
    push_cast
    rw [add_div]
  · simp only [if_neg hs]
    by_cases hlt : b.shift < a.shift
    · simp only [if_pos hlt]
      have key : (b.change_shift a.shift).toRat = b.toRat :=
        toRat_change_shift b a.shift (le_of_lt hlt)
      unfold BigReal.toRat at key ⊢
      rw [change_shift_shift] at key
      push_cast
      rw [add_div, key]
    · simp only [if_neg hlt]
      have hle : a.shift ≤ b.shift := le_of_not_lt hlt
      have key : (a.change_shift b.shift).toRat = a.toRat :=
        toRat_change_shift a b.shift hle
      unfold BigReal.toRat at key ⊢
      rw [change_shift_shift] at key
      push_cast
      rw [add_div, key, add_comm]

lemma toRat_neg (b : BigReal) : BigReal.toRat ⟨b.shift, -b.value⟩ = -b.toRat := by
  unfold BigReal.toRat
  push_cast
  rw [neg_div]

lemma toRat_sub (a b : BigReal) : (a.sub b).toRat = a.toRat - b.toRat := by
  unfold BigReal.sub
  rw [toRat_add, toRat_neg, sub_eq_add_neg]

lemma toRat_mul (a b : BigReal) : (a.mul b).toRat = a.toRat * b.toRat := by
  unfold BigReal.mul BigReal.toRat
  push_cast
  rw [pow_add, div_mul_div_comm]

lemma cross_to_aligned (a b : BigReal) (m : Nat) (ha : a.shift ≤ m) (hb : b.shift ≤ m)
    (h : a.toRat = b.toRat) :
    a.value * 10 ^ (m - a.shift) = b.value * 10 ^ (m - b.shift) := by
  have e1 : (10 : ℚ) ^ (m - a.shift) = 10 ^ m / 10 ^ a.shift := by
    rw [eq_div_iff (ten_pow_ne _), ratPow_sub_mul _ _ ha]
  have e2 : (10 : ℚ) ^ (m - b.shift) = 10 ^ m / 10 ^ b.shift := by
    rw [eq_div_iff (ten_pow_ne _), ratPow_sub_mul _ _ hb]
  have swap : ∀ x y z : ℚ, x * (y / z) = x / z * y := fun x y z => by ring
  have h1 : (a.value : ℚ) * 10 ^ (m - a.shift) = (b.value : ℚ) * 10 ^ (m - b.shift) := by
    rw [e1, e2, swap, swap]
    unfold BigReal.toRat at h
    rw [h]
  exact_mod_cast h1

lemma eqB_of_toRat (a b : BigReal) (h : a.toRat = b.toRat) : a.eqB b = true := by
  unfold BigReal.eqB
  by_cases hs : a.shift = b.shift
  · simp only [if_pos hs, beq_iff_eq]
    have := cross_to_aligned a b a.shift (le_refl _) (le_of_eq hs.symm) h
    simpa [hs] using this
  · simp only [if_neg hs, beq_iff_eq]
    rw [change_shift_value_of_le a _ (le_max_left a.shift b.shift),
        change_shift_value_of_le b _ (le_max_right a.shift b.shift)]
    exact cross_to_aligned a b _ (le_max_left _ _) (le_max_right _ _) h

/-- C6: for all BigReal values `a` and `b` with `b` nonzero and every scale
`k`, the quotient `a.div(b, k)` has shift (fractional digit count) exactly
`k`, and the exact identity `a == a.div(b, k) * b + a.rem(b, k)` holds under
the source's `BigReal` equality. -/
theorem c6_scale_discipline (a b : BigReal) (k : Nat) (hb : b.is_zero = false) :
    (a.div b k).shift = k
  ∧ (a.div b k).num_frx_digits = k
  ∧ BigReal.eqB a (((a.div b k).mul b).add (a.rem b k)) = true := by
  refine ⟨rfl, rfl, ?_⟩
  have hsum : (((a.div b k).mul b).add (a.rem b k)).toRat = a.toRat := by
    rw [toRat_add, toRat_mul, BigReal.rem, toRat_sub, toRat_mul]
    ring
  exact eqB_of_toRat _ _ hsum.symm

/-- Witness for C6 at `a = 50.5`, `b = 0.055`, `k = 1` (the division example
from the source's own tests). -/
theorem c6_scale_discipline_witness :
    (⟨3, 55⟩ : BigReal).is_zero = false
  ∧ ((⟨1, 505⟩ : BigReal).div ⟨3, 55⟩ 1).shift = 1
  ∧ BigReal.eqB ⟨1, 505⟩
      ((((⟨1, 505⟩ : BigReal).div ⟨3, 55⟩ 1).mul ⟨3, 55⟩).add
        ((⟨1, 505⟩ : BigReal).rem ⟨3, 55⟩ 1)) = true :=
  ⟨by decide, (c6_scale_discipline ⟨1, 505⟩ ⟨3, 55⟩ 1 (by decide)).1,
   (c6_scale_discipline ⟨1, 505⟩ ⟨3, 55⟩ 1 (by decide)).2.2⟩

lemma simplifyAux_le (s : Nat) (v : Int) : (simplifyAux s v).1 ≤ s := by
  induction s generalizing v with
  | zero => simp [simplifyAux]
  | succ s ih =>
    unfold simplifyAux
    split
    · exact le_trans (ih _) (Nat.le_succ s)
    · exact le_refl _

lemma simplifyAux_spec (s : Nat) (v : Int) :
    (simplifyAux s v).2 * 10 ^ (s - (simplifyAux s v).1) = v := by
  induction s generalizing v with
  | zero => simp [simplifyAux]
  | succ s ih =>
    unfold simplifyAux
    split
    · next hmod =>
      have hdvd : (10 : Int) ∣ v := Int.dvd_of_tmod_eq_zero hmod
      have ht := simplifyAux_le s (v.tdiv 10)
      have he : s + 1 - (simplifyAux s (v.tdiv 10)).1
          = (s - (simplifyAux s (v.tdiv 10)).1) + 1 := by omega
      rw [he, pow_succ, ← mul_assoc, ih, Int.tdiv_mul_cancel hdvd]
    · simp

lemma simplifyAux_minimal (s : Nat) (v : Int) :
    (10 : Int) ∣ (simplifyAux s v).2 → (simplifyAux s v).1 = 0 := by
  induction s generalizing v with
  | zero => intro _; rfl
  | succ s ih =>
    unfold simplifyAux
    split
    · exact ih _
    · next hmod =>
      intro hdvd
      exact absurd (Int.tmod_eq_zero_of_dvd hdvd) hmod


lemma canon_le_case (t t' : Nat) (w w' : Int) (hle : t ≤ t') (hw' : w' ≠ 0)
    (h2 : (10 : Int) ∣ w' → t' = 0) (h : w * 10 ^ t' = w' * 10 ^ t) :
    t = t' ∧ w = w' := by
  have hsplit : t' = (t' - t) + t := by omega
  have heq2 : (w * 10 ^ (t' - t)) * 10 ^ t = w' * 10 ^ t := by
    rw [mul_assoc, ← pow_add, ← hsplit]
    exact h
  have heq3 : w * 10 ^ (t' - t) = w' :=
    mul_right_cancel₀ (pow_ne_zero _ (by norm_num : (10 : ℤ) ≠ 0)) heq2
  rcases Nat.eq_zero_or_pos (t' - t) with hz | hpos
  · have hq : t = t' := by omega
    subst hq
    simp only [hz, pow_zero, mul_one] at heq3
    exact ⟨rfl, heq3⟩
  · exfalso
    have hdvd : (10 : Int) ∣ w' := by
      rcases Nat.exists_eq_add_of_lt hpos with ⟨k, hk⟩
      refine ⟨w * 10 ^ k, ?_⟩
      rw [← heq3, hk]
      ring
    have := h2 hdvd
    omega

lemma canon_unique (t t' : Nat) (w w' : Int)
    (h1 : (10 : Int) ∣ w → t = 0) (h2 : (10 : Int) ∣ w' → t' = 0)
    (h : w * 10 ^ t' = w' * 10 ^ t) : t = t' ∧ w = w' := by
  rcases eq_or_ne w 0 with hw | hw
  · have hw' : w' = 0 := by
      have h0 : w' * 10 ^ t = 0 := by rw [← h, hw, zero_mul]
      rcases mul_eq_zero.mp h0 with h' | h'
      · exact h'
      · exact absurd h' (pow_ne_zero _ (by norm_num))
    have ht : t = 0 := h1 (hw ▸ dvd_zero 10)
    have ht' : t' = 0 := h2 (hw' ▸ dvd_zero 10)
    exact ⟨ht.trans ht'.symm, hw.trans hw'.symm⟩
  · have hw' : w' ≠ 0 := by
      intro h0
      apply hw
      have h0' : w * 10 ^ t' = 0 := by rw [h, h0, zero_mul]
      rcases mul_eq_zero.mp h0' with h' | h'
      · exact h'
      · exact absurd h' (pow_ne_zero _ (by norm_num))
    rcases le_total t t' with hle | hle
    · exact canon_le_case t t' w w' hle hw' h2 h
    · rcases canon_le_case t' t w' w hle hw h1 h.symm with ⟨he, hv⟩
      exact ⟨he.symm, hv.symm⟩

lemma toRat_cross (x y : BigReal) (h : x.toRat = y.toRat) :
    x.value * 10 ^ y.shift = y.value * 10 ^ x.shift := by
  have := cross_to_aligned x y (x.shift + y.shift) (by omega) (by omega) h
  have e1 : x.shift + y.shift - x.shift = y.shift := by omega
  have e2 : x.shift + y.shift - y.shift = x.shift := by omega
  rwa [e1, e2] at this

lemma hashCanon_of_toRat (x y : BigReal) (h : x.toRat = y.toRat) :
    x.hashCanon = y.hashCanon := by
  unfold BigReal.hashCanon
  have hx := simplifyAux_spec x.shift x.value
  have hy := simplifyAux_spec y.shift y.value
  have hxl := simplifyAux_le x.shift x.value
  have hyl := simplifyAux_le y.shift y.value
  have hxm := simplifyAux_minimal x.shift x.value
  have hym := simplifyAux_minimal y.shift y.value
  set t := (simplifyAux x.shift x.value).1 with ht
  set w := (simplifyAux x.shift x.value).2 with hw
  set t' := (simplifyAux y.shift y.value).1 with ht'
  set w' := (simplifyAux y.shift y.value).2 with hw'
  have cross := toRat_cross x y h
  have key : w * 10 ^ t' = w' * 10 ^ t := by
    have e1 : (x.shift - t) + y.shift = (x.shift + y.shift - t - t') + t' := by omega
    have e2 : (y.shift - t') + x.shift = (x.shift + y.shift - t - t') + t := by omega
    have big : w * 10 ^ ((x.shift + y.shift - t - t') + t')
        = w' * 10 ^ ((x.shift + y.shift - t - t') + t) := by
      rw [← e1, ← e2, pow_add, pow_add, ← mul_assoc, ← mul_assoc, hx, hy]
      exact cross
    rw [pow_add, pow_add, ← mul_assoc, ← mul_assoc] at big
    have big2 : (w * 10 ^ t') * 10 ^ (x.shift + y.shift - t - t')
        = (w' * 10 ^ t) * 10 ^ (x.shift + y.shift - t - t') := by
      calc (w * 10 ^ t') * 10 ^ (x.shift + y.shift - t - t')
          = w * 10 ^ (x.shift + y.shift - t - t') * 10 ^ t' := by ring
        _ = w' * 10 ^ (x.shift + y.shift - t - t') * 10 ^ t := big
        _ = (w' * 10 ^ t) * 10 ^ (x.shift + y.shift - t - t') := by ring
    exact mul_right_cancel₀ (pow_ne_zero _ (by norm_num : (10 : ℤ) ≠ 0)) big2
  rcases canon_unique t t' w w' hxm hym key with ⟨he, hv⟩
  rw [Prod.ext_iff]
  exact ⟨he, hv⟩

/-- C9: BigReal equality and hashing are representation independent: two
BigReals denoting the same number at different shifts compare equal under the
source's `PartialEq` and have equal hashes (modelled as equal canonical
simplified forms); consequently a register-array store followed by a load
with a numerically equal key of a different scale reads back the stored
entry. -/
theorem c9_bigreal_eq_hash (x y : BigReal) (h : x.toRat = y.toRat) :
    BigReal.eqB x y = true
  ∧ BigReal.hashCanon x = BigReal.hashCanon y
  ∧ ∀ (stk : List DCRegister) (v : DCValue),
      DCRegisterStack.array_load (DCRegisterStack.array_store stk x v) y = v := by
  refine ⟨eqB_of_toRat x y h, hashCanon_of_toRat x y h, ?_⟩
  intro stk v
  cases stk with
  | nil =>
    simp [DCRegisterStack.array_store, DCRegisterStack.array_load,
          DCRegister.map_insert, DCRegister.map_lookup, DCRegister.new,
          List.find?, eqB_of_toRat x y h]
  | cons top rest =>
    simp [DCRegisterStack.array_store, DCRegisterStack.array_load,
          DCRegister.map_insert, DCRegister.map_lookup,
          List.find?, eqB_of_toRat x y h]

/-- Witness for C9 at the claim's example: value 10 at shift 1 versus value
1 at shift 0, with a concrete array store and load. -/
theorem c9_bigreal_eq_hash_witness :
    BigReal.toRat ⟨1, 10⟩ = BigReal.toRat ⟨0, 1⟩
  ∧ BigReal.eqB ⟨1, 10⟩ ⟨0, 1⟩ = true
  ∧ BigReal.hashCanon ⟨1, 10⟩ = BigReal.hashCanon ⟨0, 1⟩
  ∧ DCRegisterStack.array_load
      (DCRegisterStack.array_store [] ⟨1, 10⟩ (DCValue.str [104])) ⟨0, 1⟩
      = DCValue.str [104] := by
  have h : BigReal.toRat ⟨1, 10⟩ = BigReal.toRat ⟨0, 1⟩ := by
    norm_num [BigReal.toRat]
  exact ⟨h, (c9_bigreal_eq_hash ⟨1, 10⟩ ⟨0, 1⟩ h).1,
           (c9_bigreal_eq_hash ⟨1, 10⟩ ⟨0, 1⟩ h).2.1,
           (c9_bigreal_eq_hash ⟨1, 10⟩ ⟨0, 1⟩ h).2.2 [] _⟩

lemma runBody_nil (td : Nat) : runBody td [] = QResult.cont := by
  simp [runBody]

lemma runBody_res_cont (td : Nat) (rest : List Item) :
    runBody td (Item.res QResult.cont :: rest) = runBody td rest := by
  simp [runBody]

lemma runBody_res_quit (td n : Nat) (rest : List Item) :
    runBody td (Item.res (QResult.quitLevels n) :: rest)
      = (quitHandler td n QResult.quitLevels).getD (runBody td rest) := by
  simp [runBody]

lemma runBody_res_term (td n : Nat) (rest : List Item) :
    runBody td (Item.res (QResult.terminate n) :: rest)
      = (quitHandler td n QResult.terminate).getD (runBody td rest) := by
  simp [runBody]

lemma runBody_call_tail (td : Nat) (sub : List Item) :
    runBody td [Item.call sub] = runBody (td + 1) sub := by
  simp [runBody]

lemma runBody_call_unfold (td : Nat) (sub : List Item) (r1 : Item) (rs1 : List Item) :
    runBody td (Item.call sub :: r1 :: rs1)
      = (match runBody 0 sub with
         | QResult.cont => runBody td (r1 :: rs1)
         | QResult.quitLevels n =>
           (quitHandler td n QResult.quitLevels).getD (runBody td (r1 :: rs1))
         | QResult.terminate n =>
           (quitHandler td n QResult.terminate).getD (runBody td (r1 :: rs1))) := by
  simp [runBody]

lemma quitHandler_zero_td (n : Nat) (hn : 1 ≤ n) (ctor : Nat → QResult) :
    quitHandler 0 n ctor = if n = 1 then some QResult.cont else some (ctor (n - 1)) := by
  by_cases h1 : n = 1
  · simp [quitHandler, h1]
  · have hgt : 0 < n - 1 := by omega
    have hsub : n - 0 - 1 = n - 1 := by omega
    rw [if_neg h1]
    simp [quitHandler, hgt, hsub]

lemma frame_quit (sub : List Item) (r1 : Item) (rs1 : List Item) (m : Nat)
    (hm : 1 ≤ m) (h : runBody 0 sub = QResult.quitLevels m) :
    runBody 0 (Item.call sub :: r1 :: rs1)
      = if m = 1 then QResult.cont else QResult.quitLevels (m - 1) := by
  rw [runBody_call_unfold, h]
  dsimp only
  rw [quitHandler_zero_td m hm]
  by_cases h1 : m = 1 <;> simp [h1]

lemma frame_cont (sub : List Item) (r1 : Item) (rs1 : List Item)
    (h : runBody 0 sub = QResult.cont) :
    runBody 0 (Item.call sub :: r1 :: rs1) = runBody 0 (r1 :: rs1) := by
  rw [runBody_call_unfold, h]

lemma nest_cons (inner : List Item) (r : List Item) (rs : List (List Item)) :
    nest inner (r :: rs) = nest (Item.call inner :: r) rs := rfl

lemma nest_append (inner : List Item) (rs1 rs2 : List (List Item)) :
    nest inner (rs1 ++ rs2) = nest (nest inner rs1) rs2 := by
  induction rs1 generalizing inner with
  | nil => rfl
  | cons r rs ih => simp [nest_cons, ih]

lemma runBody_nest_cong (rs : List (List Item)) (hne : ∀ r ∈ rs, r ≠ [])
    (B C : List Item) (h : runBody 0 B = runBody 0 C) :
    runBody 0 (nest B rs) = runBody 0 (nest C rs) := by
  induction rs generalizing B C with
  | nil => exact h
  | cons r rs ih =>
    cases r with
    | nil => exact absurd rfl (hne [] (by simp))
    | cons a as =>
      rw [nest_cons, nest_cons]
      apply ih (fun x hx => hne x (by simp [hx]))
      rw [runBody_call_unfold, runBody_call_unfold, h]

lemma runBody_nest_quit_big (rs : List (List Item)) (hne : ∀ r ∈ rs, r ≠ [])
    (B : List Item) (m : Nat) (hm : 1 ≤ m) (hlen : rs.length < m)
    (h : runBody 0 B = QResult.quitLevels m) :
    runBody 0 (nest B rs) = QResult.quitLevels (m - rs.length) := by
  induction rs generalizing B m with
  | nil => simpa [nest] using h
  | cons r rs ih =>
    cases r with
    | nil => exact absurd rfl (hne [] (by simp))
    | cons a as =>
      rw [nest_cons]
      have hlen' : rs.length + 1 < m := by simpa using hlen
      have hm2 : 2 ≤ m := by omega
      have hframe : runBody 0 (Item.call B :: a :: as) = QResult.quitLevels (m - 1) := by
        rw [frame_quit B a as m hm h]
        simp [show m ≠ 1 by omega]
      have hres := ih (fun x hx => hne x (by simp [hx])) (Item.call B :: a :: as) (m - 1)
        (by omega) (by omega) hframe
      rw [hres]
      congr 1
      simp
      omega

lemma runBody_nest_quit_exact (rs : List (List Item)) (hne : ∀ r ∈ rs, r ≠ [])
    (B : List Item) (m : Nat) (hm : 1 ≤ m) (hlen : m = rs.length)
    (h : runBody 0 B = QResult.quitLevels m) :
    runBody 0 (nest B rs) = QResult.cont := by
  induction rs generalizing B m with
  | nil =>
    simp at hlen
    omega
  | cons r rs ih =>
    cases r with
    | nil => exact absurd rfl (hne [] (by simp))
    | cons a as =>
      rw [nest_cons]
      have hlen' : m = rs.length + 1 := by simpa using hlen
      by_cases h1 : m = 1
      · have hrs : rs = [] := List.length_eq_zero.mp (by omega)
        subst hrs
        show runBody 0 (Item.call B :: a :: as) = QResult.cont
        rw [frame_quit B a as m hm h, if_pos h1]
      · have hframe : runBody 0 (Item.call B :: a :: as) = QResult.quitLevels (m - 1) := by
          rw [frame_quit B a as m hm h]
          simp [h1]
        exact ih (fun x hx => hne x (by simp [hx])) (Item.call B :: a :: as) (m - 1)
          (by omega) (by omega) hframe

lemma inner_quit (n : Nat) (hn : 1 ≤ n) (t : List Item) :
    runBody 0 (Item.res (QResult.quitLevels n) :: t)
      = if n = 1 then QResult.cont else QResult.quitLevels (n - 1) := by
  rw [runBody_res_quit, quitHandler_zero_td n hn]
  by_cases h1 : n = 1 <;> simp [h1]

lemma inner_nest_cont (n : Nat) (hn : 1 ≤ n) (t : List Item)
    (rsa : List (List Item)) (hne : ∀ r ∈ rsa, r ≠ []) (hlen : rsa.length + 1 = n) :
    runBody 0 (nest (Item.res (QResult.quitLevels n) :: t) rsa) = QResult.cont := by
  by_cases h1 : n = 1
  · have hrs : rsa = [] := List.length_eq_zero.mp (by omega)
    subst hrs
    show runBody 0 (Item.res (QResult.quitLevels n) :: t) = QResult.cont
    rw [inner_quit n hn t, if_pos h1]
  · refine runBody_nest_quit_exact rsa hne _ (n - 1) (by omega) (by omega) ?_
    rw [inner_quit n hn t, if_neg h1]

lemma topProgram_swallow (m : Nat) (rest : List Item) :
    topProgram (Item.res (QResult.quitLevels m) :: rest) = topProgram rest := by
  simp [topProgram]

lemma topProgram_no_quit (items : List Item) :
    topProgram items = QResult.cont ∨ ∃ j, topProgram items = QResult.terminate j := by
  induction items with
  | nil => left; simp [topProgram]
  | cons item rest ih =>
    cases item with
    | res r =>
      cases r with
      | cont => simpa [topProgram] using ih
      | quitLevels n => simpa [topProgram] using ih
      | terminate n => exact Or.inr ⟨n, by simp [topProgram]⟩
    | call sub =>
      cases hsub : runBody 0 sub with
      | cont => simpa [topProgram, hsub] using ih
      | quitLevels n => simpa [topProgram, hsub] using ih
      | terminate n => exact Or.inr ⟨n, by simp [topProgram, hsub]⟩

/-- C3: quit saturation.  A `QuitLevels` result reaching the top (non-macro)
level is swallowed by `DC4::program` (first conjunct) and the top level can
only ever be left through a `Terminate` result (second conjunct), so `Q`
cannot terminate the process for any input program.  Within
`k = rs.length + 1` nested non-tail macro frames (each enclosing frame has a
nonempty continuation), a quit of `n` levels raised in the innermost frame
pops exactly `min n k` frames: for `n > k` the quit passes through all `k`
frames and reaches the top still carrying `n - k` (where it is swallowed);
for `n = k` all `k` frames are popped and the top level continues; for
`n < k` frames `1..n` are popped and execution resumes with the surviving
frame's remaining items `rSurv`, exactly as if that frame had been entered
with those items. -/
theorem c3_quit_saturation (n : Nat) (hn : 1 ≤ n) (t : List Item) :
    (∀ (m : Nat) (rest : List Item),
        topProgram (Item.res (QResult.quitLevels m) :: rest) = topProgram rest)
  ∧ (∀ items : List Item,
        topProgram items = QResult.cont ∨ ∃ j, topProgram items = QResult.terminate j)
  ∧ (∀ rs : List (List Item), (∀ r ∈ rs, r ≠ []) →
        (rs.length + 1 < n →
          runBody 0 (nest (Item.res (QResult.quitLevels n) :: t) rs)
            = QResult.quitLevels (n - (rs.length + 1)))
      ∧ (n = rs.length + 1 →
          runBody 0 (nest (Item.res (QResult.quitLevels n) :: t) rs) = QResult.cont))
  ∧ (∀ (rsa : List (List Item)) (rSurv : List Item) (rsb : List (List Item)),
        (∀ r ∈ rsa, r ≠ []) → rSurv ≠ [] → (∀ r ∈ rsb, r ≠ []) →
        rsa.length + 1 = n →
        runBody 0 (nest (Item.res (QResult.quitLevels n) :: t) (rsa ++ rSurv :: rsb))
          = runBody 0 (nest rSurv rsb)) := by
  refine ⟨topProgram_swallow, topProgram_no_quit, ?_, ?_⟩
  · intro rs hne
    constructor
    · intro hlt
      have h2 : n ≠ 1 := by omega
      have hinner : runBody 0 (Item.res (QResult.quitLevels n) :: t)
          = QResult.quitLevels (n - 1) := by
        rw [inner_quit n hn t, if_neg h2]
      have hbig := runBody_nest_quit_big rs hne _ (n - 1) (by omega) (by omega) hinner
      rw [hbig]
      congr 1
      omega
    · intro heq
      exact inner_nest_cont n hn t rs hne heq.symm
  · intro rsa rSurv rsb hnea hSne hneb hlen
    have hBstar : runBody 0 (nest (Item.res (QResult.quitLevels n) :: t) rsa)
        = QResult.cont := inner_nest_cont n hn t rsa hnea hlen
    rw [nest_append, nest_cons]
    cases rSurv with
    | nil => exact absurd rfl hSne
    | cons a as =>
      apply runBody_nest_cong rsb hneb
      exact frame_cont _ a as hBstar

/-- Witness for C3: a top-level `5Q` is swallowed; `2Q` inside two nested
non-tail frames pops both and the program continues. -/
theorem c3_quit_saturation_witness :
    (1 ≤ 2)
  ∧ topProgram [Item.res (QResult.quitLevels 5)] = topProgram []
  ∧ runBody 0 (nest [Item.res (QResult.quitLevels 2)] [[Item.res QResult.cont]])
      = QResult.cont :=
  ⟨by decide,
   (c3_quit_saturation 2 (by decide) []).1 5 [],
   ((c3_quit_saturation 2 (by decide) []).2.2.1 [[Item.res QResult.cont]]
     (by simp)).2 (by decide)⟩

/-- C4: the quit handler of a macro frame with tail-call counter `td`
receiving a `QuitLevels(n)` or `Terminate(n)` result: the count is
decremented by `td + 1`; a positive remainder is propagated as the same
result kind carrying the remainder; a zero remainder stops the quit at this
frame, which returns `Continue`; and when `n - 1 < td` (which forces
`td > 0`), all tail-call-unrolled bodies are abandoned and the frame returns
`Continue` to its ultimate caller.  The last two conjuncts tie the handler
to the macro runner: a quit result inside a body is resolved through exactly
this handler, the frame returning the handler's verdict when there is one. -/
theorem c4_quit_decrement (td n : Nat) (hn : 1 ≤ n) (ctor : Nat → QResult) :
    (td < n - 1 → quitHandler td n ctor = some (ctor (n - td - 1)))
  ∧ (n - 1 = td → quitHandler td n ctor = some QResult.cont)
  ∧ (n - 1 < td → quitHandler td n ctor = some QResult.cont)
  ∧ (∀ rest : List Item,
        runBody td (Item.res (QResult.quitLevels n) :: rest)
          = (quitHandler td n QResult.quitLevels).getD (runBody td rest))
  ∧ (∀ rest : List Item,
        runBody td (Item.res (QResult.terminate n) :: rest)
          = (quitHandler td n QResult.terminate).getD (runBody td rest)) := by
  refine ⟨?_, ?_, ?_,
    fun rest => runBody_res_quit td n rest,
    fun rest => runBody_res_term td n rest⟩
  · intro h
    simp [quitHandler, h]
  · intro h
    simp [quitHandler, show ¬ td < n - 1 by omega, h]
  · intro h
    simp [quitHandler, show ¬ td < n - 1 by omega, show ¬ n - 1 = td by omega,
          show 0 < n ∧ 0 < td by omega]

/-- Witness for C4: tail depth 1 with a 5-level quit propagates a 3-level
quit; tail depth 2 with a 3-level terminate stops with `Continue`. -/
theorem c4_quit_decrement_witness :
    (1 ≤ 5)
  ∧ quitHandler 1 5 QResult.quitLevels = some (QResult.quitLevels 3)
  ∧ quitHandler 2 3 QResult.terminate = some QResult.cont :=
  ⟨by decide,
   (c4_quit_decrement 1 5 (by decide) QResult.quitLevels).1 (by decide),
   (c4_quit_decrement 2 3 (by decide) QResult.terminate).2.1 (by decide)⟩

lemma digit_char_facts : ∀ d, d < 16 →
    charToDigit16 (charUpper (digitCharLC d)) = some d
  ∧ charUpper (digitCharLC d) ≠ '_'
  ∧ (('0' ≤ charUpper (digitCharLC d) ∧ charUpper (digitCharLC d) ≤ '9')
      ∨ ('A' ≤ charUpper (digitCharLC d) ∧ charUpper (digitCharLC d) ≤ 'F'))
  ∧ charUpper (digitCharLC d) ≠ '-' := by
  decide

lemma digit_char_push (d : Nat) (hd : d < 16) (r : Nat) (num : Number) :
    Number.push (charUpper (digitCharLC d)) r num
      = some { num with int := num.int * r + d, shift := num.shift.map (· + 1) } := by
  obtain ⟨h1, h2, h3, _⟩ := digit_char_facts d hd
  unfold Number.push
  rw [if_neg h2, if_pos h3, h1]
  rfl

lemma push_digits_fold (r : Nat) (ds : List Nat) (hds : ∀ d ∈ ds, d < 16) :
    ∀ num : Number, num.shift = none →
    List.foldlM (fun nm c => Number.push c r nm) num ((ds.map digitCharLC).map charUpper)
      = some { num with
               int := ds.foldl (fun (a : Int) (d : Nat) => a * r + d) num.int } := by
  induction ds with
  | nil =>
    intro num _
    simp [List.foldlM]
  | cons d ds ih =>
    intro num hshift
    have hd : d < 16 := hds d (by simp)
    simp only [List.map_cons, List.foldlM_cons]
    rw [digit_char_push d hd r num]
    simp only [Option.bind_eq_bind, Option.some_bind]
    rw [ih (fun x hx => hds x (by simp [hx])) _ (by simp [hshift])]
    simp [hshift]

lemma foldr_ofDigits (r : Nat) (L : List Nat) :
    L.foldr (fun d a => a * r + d) 0 = Nat.ofDigits r L := by
  induction L with
  | nil => simp [Nat.ofDigits_nil]
  | cons d L ih =>
    simp only [List.foldr_cons, Nat.ofDigits_cons, ih]
    ring

lemma natDigitsBE_fold (r n : Nat) (hr : 2 ≤ r) :
    (natDigitsBE r n).foldl (fun a d => a * r + d) 0 = n := by
  unfold natDigitsBE
  by_cases h0 : n = 0
  · simp [h0]
  · rw [if_neg h0, List.foldl_reverse]
    have h := foldr_ofDigits r (Nat.digits r n)
    rw [h, Nat.ofDigits_digits]

lemma foldl_int_of_nat (r : Nat) (ds : List Nat) (a : Nat) :
    ds.foldl (fun (x : Int) (d : Nat) => x * r + d) (a : Int)
      = ((ds.foldl (fun x d => x * r + d) a : Nat) : Int) := by
  induction ds generalizing a with
  | nil => rfl
  | cons d ds ih =>
    simp only [List.foldl_cons]
    have hcast : (a : Int) * r + d = ((a * r + d : Nat) : Int) := by push_cast; ring
    rw [hcast, ih]

lemma natDigitsBE_lt (r n : Nat) (hr : 2 ≤ r) (hr16 : r ≤ 16) :
    ∀ d ∈ natDigitsBE r n, d < 16 := by
  intro d hd
  unfold natDigitsBE at hd
  by_cases h0 : n = 0
  · simp [h0] at hd
    omega
  · rw [if_neg h0, List.mem_reverse] at hd
    exact lt_of_lt_of_le (Nat.digits_lt_base (by omega) hd) hr16

lemma print_elem_eq (r : Nat) (n : Int) :
    print_elem_num r ⟨0, n⟩
      = (if n < 0 then ['-'] else []) ++ ((natDigitsBE r n.natAbs).map digitCharLC).map charUpper := by
  unfold print_elem_num to_str_radix0
  by_cases h0 : n = 0
  · subst h0
    simp [natDigitsBE]
    decide
  · rw [if_neg h0]
    simp only [List.map_append]
    congr 1
    by_cases hneg : n < 0 <;> simp [hneg] <;> decide

lemma map_dash_id (ds : List Nat) (hds : ∀ d ∈ ds, d < 16) :
    ((ds.map digitCharLC).map charUpper).map (fun c => if c = '-' then '_' else c)
      = (ds.map digitCharLC).map charUpper := by
  induction ds with
  | nil => rfl
  | cons d ds ih =>
    have h4 := (digit_char_facts d (hds d (by simp))).2.2.2
    simp only [List.map_cons]
    rw [if_neg h4, ih (fun x hx => hds x (by simp [hx]))]

lemma digits_fold_int (r m : Nat) (h2 : 2 ≤ r) :
    (natDigitsBE r m).foldl (fun (a : Int) (d : Nat) => a * r + d) (0 : Int) = (m : Int) := by
  have h := foldl_int_of_nat r (natDigitsBE r m) 0
  norm_num at h
  rw [h, natDigitsBE_fold r m h2]

lemma parse_digits_nonneg (r : Nat) (h2 : 2 ≤ r) (h16 : r ≤ 16) (m : Nat) :
    parseNumberChars r (((natDigitsBE r m).map digitCharLC).map charUpper)
      = some ⟨0, (m : Int)⟩ := by
  unfold parseNumberChars
  rw [push_digits_fold r _ (natDigitsBE_lt r m h2 h16) {} rfl]
  simp [Number.finish, digits_fold_int r m h2]

lemma parse_underscore_digits (r : Nat) (h2 : 2 ≤ r) (h16 : r ≤ 16) (m : Nat) :
    parseNumberChars r ('_' :: ((natDigitsBE r m).map digitCharLC).map charUpper)
      = some ⟨0, -(m : Int)⟩ := by
  unfold parseNumberChars
  rw [List.foldlM_cons]
  have hpush : Number.push '_' r {} = some { ({} : Number) with neg := true } := by
    simp [Number.push]
  rw [hpush]
  simp only [Option.bind_eq_bind, Option.some_bind]
  rw [push_digits_fold r _ (natDigitsBE_lt r m h2 h16) _ rfl]
  simp [Number.finish, digits_fold_int r m h2]

/-- C5: radix round trip.  For every output radix `r` in 2..=16 and every
integer `n`, feeding the printed representation of `n` back through the
number builder with `iradix = r` recovers `n`: directly for nonnegative `n`
(second conjunct), and with the printed minus sign re-entered as dc's `_`
negative marker in general (first conjunct, since `-` itself is not a number
character in dc input). -/
theorem c5_radix_round_trip (r : Nat) (h2 : 2 ≤ r) (h16 : r ≤ 16) (n : Int) :
    parseNumberChars r
        ((print_elem_num r ⟨0, n⟩).map fun c => if c = '-' then '_' else c)
      = some ⟨0, n⟩
  ∧ (0 ≤ n → parseNumberChars r (print_elem_num r ⟨0, n⟩) = some ⟨0, n⟩) := by
  have hds := natDigitsBE_lt r n.natAbs h2 h16
  constructor
  · rw [print_elem_eq]
    by_cases hneg : n < 0
    · rw [if_pos hneg]
      have hstep : ((['-'] ++ ((natDigitsBE r n.natAbs).map digitCharLC).map charUpper).map
            fun c => if c = '-' then '_' else c)
          = '_' :: ((natDigitsBE r n.natAbs).map digitCharLC).map charUpper := by
        simp only [List.singleton_append, List.map_cons]
        rw [map_dash_id _ hds]
        norm_num
      rw [hstep, parse_underscore_digits r h2 h16 n.natAbs]
      congr 1
      congr 1
      omega
    · rw [if_neg hneg]
      simp only [List.nil_append]
      rw [map_dash_id _ hds, parse_digits_nonneg r h2 h16 n.natAbs]
      congr 1
      congr 1
      omega
  · intro hpos
    rw [print_elem_eq, if_neg (by omega : ¬ n < 0)]
    simp only [List.nil_append]
    rw [parse_digits_nonneg r h2 h16 n.natAbs]
    congr 1
    congr 1
    omega

/-- Witness for C5 at radix 16 and the values 255 and -255. -/
theorem c5_radix_round_trip_witness :
    (2 ≤ 16) ∧ (16 ≤ 16)
  ∧ parseNumberChars 16 (print_elem_num 16 ⟨0, 255⟩) = some ⟨0, 255⟩
  ∧ parseNumberChars 16
      ((print_elem_num 16 ⟨0, -255⟩).map fun c => if c = '-' then '_' else c)
      = some ⟨0, -255⟩ :=
  ⟨by decide, by decide,
   (c5_radix_round_trip 16 (by decide) (by decide) 255).2 (by decide),
   (c5_radix_round_trip 16 (by decide) (by decide) (-255)).1⟩

/-- Counterexample to C1 as stated: evaluating `v` (sqrt) with `-25` on the
stack reports the error, but the stack after the failed operation is empty,
not `[-25]` — the operand was popped before the sign was validated. -/
theorem c1_stack_neutral_counterexample :
    (DC4action ActionE.sqrt
        { DC4State.initial with stack := [DCValue.num ⟨0, -25⟩] }).2
      = Except.error "square root of negative number"
  ∧ (DC4action ActionE.sqrt
        { DC4State.initial with stack := [DCValue.num ⟨0, -25⟩] }).1.stack = []
  ∧ ([] : List DCValue) ≠ [DCValue.num ⟨0, -25⟩] :=
  ⟨rfl, rfl, by decide⟩

/-- C1 (amended): errors detected before any operand is popped (such as the
divide-by-zero check inside the binary-operator closure) are stack neutral,
but single-operand commands pop before validating and consume the popped
value on error: `_25 v` reports "square root of negative number" and leaves
the stack without the `-25`. -/
theorem c1_stack_neutral_amended :
    (∀ (st : DC4State) (n : BigReal) (rest : List DCValue),
        st.stack = DCValue.num n :: rest → n.is_negative = true →
        DC4action ActionE.sqrt st
          = ({ st with stack := rest }, Except.error "square root of negative number"))
  ∧ (∀ (st : DC4State) (a b : BigReal) (rest : List DCValue),
        st.stack = DCValue.num b :: DCValue.num a :: rest → b.is_zero = true →
        DC4action ActionE.div st = (st, Except.error "divide by zero")) := by
  constructor
  · intro st n rest hstack hneg
    simp [DC4action, hstack, hneg]
  · intro st a b rest hstack hzero
    simp [DC4action, get_two_ints, hstack, hzero]

/-- Witness for the amended C1 at `_25 v` and at `3 0 /`. -/
theorem c1_stack_neutral_amended_witness :
    ({ DC4State.initial with stack := [DCValue.num ⟨0, -25⟩] } : DC4State).stack
        = DCValue.num ⟨0, -25⟩ :: []
  ∧ BigReal.is_negative ⟨0, -25⟩ = true
  ∧ DC4action ActionE.sqrt { DC4State.initial with stack := [DCValue.num ⟨0, -25⟩] }
      = ({ DC4State.initial with stack := ([] : List DCValue) },
         Except.error "square root of negative number")
  ∧ DC4action ActionE.div
      { DC4State.initial with stack := [DCValue.num ⟨0, 0⟩, DCValue.num ⟨0, 3⟩] }
      = ({ DC4State.initial with stack := [DCValue.num ⟨0, 0⟩, DCValue.num ⟨0, 3⟩] },
         Except.error "divide by zero") :=
  ⟨rfl, by decide,
   c1_stack_neutral_amended.1 _ ⟨0, -25⟩ [] rfl (by decide),
   c1_stack_neutral_amended.2 _ ⟨0, 3⟩ ⟨0, 0⟩ [] rfl (by decide)⟩

/-- Counterexample to C2 as stated: with `1` pushed then `2` (so `2` is the
most recent top), `>x` with register `x` (byte 120) holding a string runs
the macro, although the claim's reading of the test — `b OP a` with `a` the
most recent top and `b` the second-from-top, i.e. `1 > 2` — is false and
would predict no macro. -/
theorem c2_comparison_counterexample :
    (DC4action (ActionE.register (RegAct.cmp Cmp.gt) 120)
        { DC4State.initial with
          stack := [DCValue.num ⟨0, 2⟩, DCValue.num ⟨0, 1⟩],
          registers := fun i => if i = 120 then [⟨some (DCValue.str [110]), []⟩] else [] }).2
      = Except.ok (DCResultE.invoke [110])
  ∧ specCondTest Cmp.gt ⟨0, 2⟩ ⟨0, 1⟩ = false :=
  ⟨rfl, by decide⟩

/-- C2 (amended): the comparison commands pop two values, with `a` the
SECOND-from-top and `b` the most recent top (as `get_two_ints` binds them),
test `b OP a`, and on success fetch the named register's top value: a string
yields `Macro(bytes)`, a number does nothing further, and an empty register
reports an error.  In every case both operands are popped. -/
theorem c2_comparison_amended (c : Cmp) (reg : Nat) (st : DC4State)
    (bTop aSec : BigReal) (rest : List DCValue)
    (hstack : st.stack = DCValue.num bTop :: DCValue.num aSec :: rest) :
    (DC4action (ActionE.register (RegAct.cmp c) reg) st).1.stack = rest
  ∧ (condTest c aSec bTop = false →
      DC4action (ActionE.register (RegAct.cmp c) reg) st
        = ({ st with stack := rest }, Except.ok DCResultE.continue))
  ∧ (condTest c aSec bTop = true →
      ∀ s, DCRegisterStack.value (st.registers reg) = some (DCValue.str s) →
        DC4action (ActionE.register (RegAct.cmp c) reg) st
          = ({ st with stack := rest }, Except.ok (DCResultE.invoke s)))
  ∧ (condTest c aSec bTop = true →
      ∀ m, DCRegisterStack.value (st.registers reg) = some (DCValue.num m) →
        DC4action (ActionE.register (RegAct.cmp c) reg) st
          = ({ st with stack := rest }, Except.ok DCResultE.continue))
  ∧ (condTest c aSec bTop = true →
      DCRegisterStack.value (st.registers reg) = none →
        DC4action (ActionE.register (RegAct.cmp c) reg) st
          = ({ st with stack := rest }, Except.error (regEmptyMsg reg))) := by
  have hget : get_two_ints st.stack = Except.ok (aSec, bTop) := by
    simp [get_two_ints, hstack]
  have hdrop : st.stack.drop 2 = rest := by simp [hstack]
  refine ⟨?_, ?_, ?_, ?_, ?_⟩
  · by_cases hc : condTest c aSec bTop
    · cases hv : DCRegisterStack.value (st.registers reg) with
      | none => simp [DC4action, cond_exec, hget, hdrop, hc, hv]
      | some v =>
        cases v with
        | num m => simp [DC4action, cond_exec, hget, hdrop, hc, hv]
        | str s => simp [DC4action, cond_exec, hget, hdrop, hc, hv]
    · simp [DC4action, cond_exec, hget, hdrop, hc]
  · intro hc
    simp [DC4action, cond_exec, hget, hdrop, hc]
  · intro hc s hv
    simp [DC4action, cond_exec, hget, hdrop, hc, hv]
  · intro hc m hv
    simp [DC4action, cond_exec, hget, hdrop, hc, hv]
  · intro hc hv
    simp [DC4action, cond_exec, hget, hdrop, hc, hv]

/-- Witness for the amended C2: `1 2 >x` with register 120 holding a string
pops both values and runs the macro. -/
theorem c2_comparison_amended_witness :
    ({ DC4State.initial with
        stack := [DCValue.num ⟨0, 2⟩, DCValue.num ⟨0, 1⟩],
        registers := fun i =>
          if i = 120 then [⟨some (DCValue.str [110]), []⟩] else [] } : DC4State).stack
      = DCValue.num ⟨0, 2⟩ :: DCValue.num ⟨0, 1⟩ :: []
  ∧ condTest Cmp.gt ⟨0, 1⟩ ⟨0, 2⟩ = true
  ∧ DC4action (ActionE.register (RegAct.cmp Cmp.gt) 120)
      { DC4State.initial with
        stack := [DCValue.num ⟨0, 2⟩, DCValue.num ⟨0, 1⟩],
        registers := fun i => if i = 120 then [⟨some (DCValue.str [110]), []⟩] else [] }
      = ({ DC4State.initial with
           stack := ([] : List DCValue),
           registers := fun i =>
             if i = 120 then [⟨some (DCValue.str [110]), []⟩] else [] },
         Except.ok (DCResultE.invoke [110])) :=
  ⟨rfl, by decide,
   (c2_comparison_amended Cmp.gt 120 _ ⟨0, 2⟩ ⟨0, 1⟩ [] rfl).2.2.1 (by decide) [110] rfl⟩

/-- Counterexample to C7 as stated: store `1` into array slot 0 of register
`a` (byte 97) with `:`, then store `2` into the register with `s`, then load
array slot 0 with `;`.  The load yields the shared zero, not the previously
stored `1`: the `s` store replaced the whole top slot, discarding its array. -/
theorem c7_store_counterexample :
    (let st0 : DC4State :=
       { DC4State.initial with stack := [DCValue.num ⟨0, 0⟩, DCValue.num ⟨0, 1⟩] }
     let st1 := (DC4action (ActionE.register RegAct.storeRegArray 97) st0).1
     let st2 := (DC4action (ActionE.register RegAct.store 97)
                  { st1 with stack := [DCValue.num ⟨0, 2⟩] }).1
     let st3 := (DC4action (ActionE.register RegAct.loadRegArray 97)
                  { st2 with stack := [DCValue.num ⟨0, 0⟩] }).1
     st3.stack) = [DCValue.num ⟨0, 0⟩]
  ∧ [DCValue.num ⟨0, 0⟩] ≠ [DCValue.num ⟨0, 1⟩] :=
  ⟨rfl, by decide⟩

/-- C7 (amended): the `s` store replaces the ENTIRE top slot of the register
with a fresh slot whose main value is `v` and whose array is empty (creating
the slot if the register was empty); the deeper slots are unchanged, but the
replaced top slot's array entries are discarded, so an entry written with
`:` is no longer readable with `;` after an `s` store to the same
register. -/
theorem c7_store_amended (stk : List DCRegister) (v : DCValue) (key : BigReal) :
    DCRegisterStack.set stk v = DCRegister.new (some v) :: stk.tail
  ∧ (DCRegisterStack.set stk v).tail = stk.tail
  ∧ DCRegisterStack.value (DCRegisterStack.set stk v) = some v
  ∧ DCRegisterStack.array_load (DCRegisterStack.set stk v) key = DCValue.num ⟨0, 0⟩ := by
  cases stk with
  | nil => exact ⟨rfl, rfl, rfl, rfl⟩
  | cons top rest => exact ⟨rfl, rfl, rfl, rfl⟩

/-- C8: evaluation of the asciify command at the failing input 200.  The
string arm truncates to the first byte as documented (last conjunct), but
the numeric arm pushes `format!("{}", byte as char)`, i.e. the UTF-8
encoding of the low byte: for 200 that is the two bytes [195, 136], not the
single byte [200] the specification (and the code's own comment in the
earlier revision) calls for. -/
theorem c8_asciify_eval :
    (DC4action ActionE.asciify
        { DC4State.initial with stack := [DCValue.num ⟨0, 200⟩] }).1.stack
      = [DCValue.str [195, 136]]
  ∧ (DC4action ActionE.asciify
        { DC4State.initial with stack := [DCValue.num ⟨0, 200⟩] }).2
      = Except.ok DCResultE.continue
  ∧ [195, 136] ≠ [200]
  ∧ (DC4action ActionE.asciify
        { DC4State.initial with stack := [DCValue.str [104, 105]] }).1.stack
      = [DCValue.str [104]]
  ∧ (DC4action ActionE.asciify
        { DC4State.initial with stack := [DCValue.str []] }).1.stack
      = [DCValue.str []] :=
  ⟨rfl, rfl, by decide, rfl, rfl⟩

/-- Counterexample to C10 as stated: `p` on a ONE-element stack does not
report "stack empty" — it prints the top and succeeds. -/
theorem c10_dup_counterexample :
    (DC4action ActionE.print
        { DC4State.initial with stack := [DCValue.num ⟨0, 1⟩] }).2
      = Except.ok DCResultE.continue
  ∧ (Except.ok DCResultE.continue : Except String DCResultE)
      ≠ Except.error "stack empty" :=
  ⟨rfl, by simp⟩

/-- C10 (amended): `d` on an empty stack is a silent no-op (no error, stack
still empty); `p` reports "stack empty" only on an empty stack and succeeds
otherwise; `r` reports "stack empty" on an empty or one-element stack and
swaps the top two otherwise. -/
theorem c10_dup_amended (st : DC4State) :
    DC4action ActionE.dup { st with stack := [] }
      = ({ st with stack := [] }, Except.ok DCResultE.continue)
  ∧ DC4action ActionE.print { st with stack := [] }
      = ({ st with stack := [] }, Except.error "stack empty")
  ∧ DC4action ActionE.swap { st with stack := [] }
      = ({ st with stack := [] }, Except.error "stack empty")
  ∧ (∀ v, DC4action ActionE.swap { st with stack := [v] }
      = ({ st with stack := [v] }, Except.error "stack empty"))
  ∧ (∀ v rest, DC4action ActionE.print { st with stack := v :: rest }
      = ({ st with stack := v :: rest }, Except.ok DCResultE.continue))
  ∧ (∀ a b rest, DC4action ActionE.swap { st with stack := a :: b :: rest }
      = ({ st with stack := b :: a :: rest }, Except.ok DCResultE.continue)) :=
  ⟨rfl, rfl, rfl, fun _ => rfl, fun _ _ => rfl, fun _ _ _ => rfl⟩
